import Mathlib

/-!
A verification development for the core of the SEE ECMAScript interpreter
(libsee).  Each C function relevant to the properties below is shallowly
embedded as an executable Lean definition, translated directly from the
source files (`parse.c`, `lex.c`, `enumerate.c`, `string.c`, `code1.c`).

Modelling conventions:
* UTF-16 code units are modelled as `Nat`; an SEE string's contents is a
  `List Nat`.  Interned-string identity (used by `enumerate.c`, which
  compares `SEE_string *` pointers) is modelled by a `Nat` identity.
* IEEE-754 doubles are modelled by `ENumber`: NaN, +Inf, -Inf, or a finite
  value represented exactly as a rational.  The operations the embedded
  code performs on numbers (`==`, `<`, ISNAN/ISPINF/ISNINF tests) agree
  with the rational model on finite doubles; +0 and -0 are collapsed, exactly
  as `==` treats them.
* Exceptions (`SEE_THROW`/`SEE_TRY`/`SEE_CAUGHT`) are modelled with
  `Except`: a C routine that can throw becomes a Lean function into
  `Except EValue _`, and a `SEE_TRY` block becomes a `match` on that
  result.
* The object protocol (the `SEE_objectclass` vtable: Get, HasProperty,
  DefaultValue, the own-property Enumerator, error-object construction)
  is implemented in files that are not part of this source tree (`obj.c`,
  `error.c` and friends); following the specification, these appear as
  abstract function fields of the `Interp` structure, and theorems
  quantify over them.
-/

namespace SEE

/-- Code units of a Lean string literal, used to write SEE strings. -/
def strOf (s : String) : List Nat := s.data.map Char.toNat

/-- Model of an IEEE-754 double: NaN, the two infinities, or a finite
value represented exactly as a rational. -/
inductive ENumber where
  | nan
  | pinf
  | ninf
  | fin (q : ℚ)
deriving DecidableEq

/-- The SEE tagged value (`struct SEE_value`).  Objects are referred to by
an identity (`Nat`); a Reference is a pair of an optional base object and
an (interned) property-name string, kept as its code units.  Completions
are a separate type (`Completion`): the data model guarantees they never
flow into value positions. -/
inductive EValue where
  | undefined
  | null
  | boolean (b : Bool)
  | number (n : ENumber)
  | string (s : List Nat)
  | object (o : Nat)
  | reference (base : Option Nat) (prop : List Nat)
deriving DecidableEq

/-- The hint argument of `SEE_ToPrimitive` / DefaultValue (in the C source
the hint is the `interp->Number` or `interp->String` object, or NULL). -/
inductive Hint where
  | number
  | string
  | noHint
deriving DecidableEq

/-- A primitive (non-object, non-reference) value: what `[[DefaultValue]]`
hands back (ECMA-262-3 §8.6.2.6: a primitive value, or a TypeError). -/
inductive Prim where
  | undefined
  | null
  | boolean (b : Bool)
  | number (n : ENumber)
  | string (s : List Nat)
deriving DecidableEq

/-- Inclusion of primitives into values. -/
def Prim.toEValue : Prim → EValue
  | .undefined => .undefined
  | .null => .null
  | .boolean b => .boolean b
  | .number n => .number n
  | .string s => .string s

/-- The interpreter's host error-class objects used by
`SEE_error_throw_string` (`interp->ReferenceError`, `interp->TypeError`,
`interp->SyntaxError`, ...). -/
inductive ErrClass where
  | referenceError
  | typeError
  | rangeError
  | synError
deriving DecidableEq

/-- The ambient interpreter.  The compatibility flags are the bits of
`interp->compatibility` consulted by the embedded code.  The function
fields model calls out of the embedded code into the object protocol,
whose implementations live outside this source tree:

* `objGet o p` — `SEE_OBJECT_GET(interp, o, p, res)` (vtable dispatch);
* `defaultValue o h` — `SEE_OBJECT_DEFAULTVALUE(interp, o, h, res)`;
  per §8.6.2.6 it produces a primitive value or throws;
* `hasCall o` — `SEE_OBJECT_HAS_CALL(o)`;
* `lexNumber s` — `SEE_lex_number` (§9.3.1 StrNumericLiteral scan, which
  itself defers to the external `SEE_strtod`); `none` models its
  "cannot parse" result, which `SEE_ToNumber` turns into NaN;
* `mkError cls msg` — the error object that `SEE_error_throw_string`
  builds (in `error.c`, outside this tree) and throws. -/
structure Interp where
  compatUNDEFDEF : Bool
  compatEXT1 : Bool
  objGet : Nat → List Nat → Except EValue EValue
  defaultValue : Nat → Hint → Except EValue Prim
  hasCall : Nat → Bool
  lexNumber : List Nat → Option ENumber
  mkError : ErrClass → List Nat → EValue

/-- `GetValue` (parse.c, §8.7.1): a non-Reference is returned unchanged; a
Reference with null base throws ReferenceError on the property name,
except that under `SEE_COMPAT_UNDEFDEF` it yields undefined; a Reference
with a base performs `base.Get(property)`. -/
def GetValue (interp : Interp) (v : EValue) : Except EValue EValue :=
  match v with
  | .reference none prop =>
      if interp.compatUNDEFDEF then .ok .undefined
      else .error (interp.mkError .referenceError prop)
  | .reference (some b) prop => interp.objGet b prop
  | v => .ok v

def strUndefined : List Nat := strOf "undefined"
def strObject : List Nat := strOf "object"
def strBoolean : List Nat := strOf "boolean"
def strNumber : List Nat := strOf "number"
def strString : List Nat := strOf "string"
def strFunction : List Nat := strOf "function"
def strUnknown : List Nat := strOf "unknown"

/-- The switch at the end of `UnaryExpression_typeof_eval` (parse.c,
§11.4.3) mapping the fetched value to a type-name string. -/
def typeof_name (interp : Interp) : EValue → List Nat
  | .undefined => strUndefined
  | .null => strObject
  | .boolean _ => strBoolean
  | .number _ => strNumber
  | .string _ => strString
  | .object o => if interp.hasCall o then strFunction else strObject
  | .reference _ _ => strUnknown

/-- `UnaryExpression_typeof_eval` (parse.c, §11.4.3), as a function of the
already-evaluated operand `r1` (= `EVAL(n->a)`).  In the C source, when
`r1` is a Reference with null base the code stores the string "undefined"
into `*res` but, lacking a `return`, control continues into
`GetValue(context, &r1, &r4)`, so that store is dead: either `GetValue`
throws (overriding it) or the final switch overwrites `*res`.  The dead
store is therefore omitted from the embedding, which continues straight
into `GetValue` as the C control flow does. -/
def UnaryExpression_typeof_eval (interp : Interp) (r1 : EValue) :
    Except EValue EValue :=
  match GetValue interp r1 with
  | .error e => .error e
  | .ok r4 => .ok (.string (typeof_name interp r4))

/-! ### String concatenation (`string.c`) -/

/-- An SEE string record: its UTF-16 code units. -/
structure SEE_string where
  data : List Nat
deriving DecidableEq

/-- The possible results of `SEE_string_concat`, distinguishing which
reference the C function returns: the second argument itself, the first
argument itself, or a freshly allocated string with the given contents. -/
inductive ConcatResult where
  | second
  | first
  | fresh (data : List Nat)
deriving DecidableEq

/-- `SEE_string_concat` (string.c): empty first argument returns the
second argument itself; empty second argument returns the first argument
itself; otherwise a new string of length `a.length + b.length` is
allocated and both contents copied into it. -/
def SEE_string_concat (a b : SEE_string) : ConcatResult :=
  if a.data.length = 0 then .second
  else if b.data.length = 0 then .first
  else .fresh (a.data ++ b.data)

/-! ### Completions and the three `try` statement forms (parse.c, §12.14) -/

/-- Completion kinds (`SEE_NORMAL`, `SEE_BREAK`, `SEE_CONTINUE`,
`SEE_RETURN`, `SEE_THROW`). -/
inductive Ctype where
  | NORMAL
  | BREAK
  | CONTINUE
  | RETURN
  | THROW
deriving DecidableEq

/-- A completion value: kind, optional carried value, optional unwind
target (the address of a statement node, modelled as a `Nat`). -/
structure Completion where
  ctype : Ctype
  value : Option EValue
  target : Option Nat
deriving DecidableEq

/-- The result of running a statement: either the completion it returns,
or the value it throws as an exception (`SEE_THROW`). -/
abbrev EvalResult := Except EValue Completion

/-- The `SEE_TRY ... if (SEE_CAUGHT(ctxt)) SEE_SET_COMPLETION(res,
SEE_THROW, SEE_CAUGHT(ctxt), NULL)` pattern: run a block and convert a
thrown exception into a THROW completion. -/
def completionOfBlock (r : EvalResult) : Completion :=
  match r with
  | .ok c => c
  | .error v => ⟨.THROW, some v, none⟩

/-- `TryStatement_catch` (parse.c): evaluate the catch clause (under a
fresh one-binding scope object carrying the caught value, which is
abstracted into `catchBody`), returning a THROW completion rather than
letting an exception out.  `C` is the caught value passed in
(`C->u.completion.value` at the call sites). -/
def TryStatement_catch (catchBody : Option EValue → EvalResult)
    (C : Option EValue) : Completion :=
  completionOfBlock (catchBody C)

/-- `TryStatement_finally_eval` (parse.c): `try Block Finally`.  The try
block runs under `SEE_TRY` (a throw becomes a THROW completion); the
finally block is then evaluated with no surrounding `SEE_TRY`, so an
exception from it propagates directly; a non-NORMAL finally completion
replaces the block's completion; a resulting THROW completion is
re-thrown.  `blockRes` and `finallyRes` are the results of
`EVAL(n->block)` and `EVAL(n->bfinally)`. -/
def TryStatement_finally_eval (blockRes finallyRes : EvalResult) :
    EvalResult :=
  let res := completionOfBlock blockRes
  match finallyRes with
  | .error e => .error e
  | .ok r2 =>
    let res := if r2.ctype ≠ .NORMAL then r2 else res
    if res.ctype = .THROW then .error (res.value.getD .undefined)
    else .ok res

/-- `TryStatement_catchfinally_eval` (parse.c): `try Block Catch Finally`.
Transcribed with the source's step structure: the try block under
`SEE_TRY` (step 1); if its completion is a throw, the catch clause runs
and its completion replaces `C` only when non-NORMAL (steps 3-5 as
written in the source); the finally block runs under `SEE_TRY` (step 6);
the source then selects the try/catch completion when the finally
completion is non-NORMAL and the finally completion otherwise; a THROW
result is re-thrown.  (A THROW completion always carries its value in the
source; `getD .undefined` covers the vacuous missing-value case.) -/
def TryStatement_catchfinally_eval (blockRes : EvalResult)
    (catchBody : Option EValue → EvalResult)
    (finallyRes : EvalResult) : EvalResult :=
  let r1 := completionOfBlock blockRes
  let C :=
    if r1.ctype = .THROW then
      let r4 := TryStatement_catch catchBody r1.value
      if r4.ctype ≠ .NORMAL then r4 else r1
    else r1
  let r6 := completionOfBlock finallyRes
  let retv := if r6.ctype ≠ .NORMAL then C else r6
  if retv.ctype = .THROW then .error (retv.value.getD .undefined)
  else .ok retv

/-! ### Automatic semicolon insertion (parse.c) and the end-of-input
newline bit (lex.c) -/

/-- Token codes.  Single-character tokens use their character code, as in
the C grammar (`';'`, `'}'`); `tEND` and `tLINETERMINATOR` are members of
the token enumeration of `tokens.h`, which is not part of this source
tree.  Modelled from the spec: they are tokens distinct from each other
and from every single-character token, so they are assigned codes above
the character range. -/
def tSEMICOLON : Nat := 59
def tRBRACE : Nat := 125
def tEND : Nat := 0x10000
def tLINETERMINATOR : Nat := 0x10001

/-- The outcome of the `EXPECT_SEMICOLON` macro: the `;` token consumed, a
semicolon inserted without consuming the next token, or a SyntaxError
(via `EXPECTX`/`EXPECTED`). -/
inductive SemiResult where
  | consumed
  | inserted
  | synErr
deriving DecidableEq

/-- `EXPECT_SEMICOLON` (parse.c): accept and consume `;`; otherwise accept
without consuming when the next token is `}` or carries the
follows-newline bit; otherwise raise SyntaxError. -/
def EXPECT_SEMICOLON (next : Nat) (followsNl : Bool) : SemiResult :=
  if next = tSEMICOLON then .consumed
  else if next = tRBRACE ∨ followsNl then .inserted
  else .synErr

/-- The token-scanning loop of `SEE_lex_next` (lex.c): `next_follows_nl`
starts at 0; each `tLINETERMINATOR` returned by `lex0` sets it and
re-scans; a `tEND` token forces it to 1.  The raw `lex0` token stream is
a list; running off its end means `lex0` reports end of input (`tEND`).
Returns the final `(next_follows_nl, next)` pair. -/
def SEE_lex_next_scan : List Nat → Bool → Bool × Nat
  | [], _ => (true, tEND)
  | t :: rest, fnl =>
      if t = tLINETERMINATOR then SEE_lex_next_scan rest true
      else if t = tEND then (true, t)
      else (fnl, t)

/-! ### The abstract relational comparison (parse.c, §11.8.5) -/

/-- `SEE_ToPrimitive` (value.c, §9.1): objects go through
`[[DefaultValue]]`; every other value is returned unchanged. -/
def SEE_ToPrimitive (interp : Interp) (val : EValue) (hint : Hint) :
    Except EValue EValue :=
  match val with
  | .object o => (interp.defaultValue o hint).map Prim.toEValue
  | v => .ok v

/-- `SEE_ToNumber` (value.c, §9.3) restricted to primitives (it never
throws on them): undefined is NaN, null is +0, booleans are 0 or 1,
numbers are themselves, strings go through the §9.3.1 scanner with NaN on
failure. -/
def ToNumber_of_prim (interp : Interp) : Prim → ENumber
  | .undefined => .nan
  | .null => .fin 0
  | .boolean b => .fin (if b then 1 else 0)
  | .number n => n
  | .string s => (interp.lexNumber s).getD .nan

/-- `SEE_ToNumber` (value.c, §9.3).  The object case converts with
`SEE_ToPrimitive` (hint Number) and re-runs `SEE_ToNumber` on the result;
since `[[DefaultValue]]` yields a primitive, that second run is
`ToNumber_of_prim`.  The default case of the C switch (a Reference or
Completion in a value slot) throws TypeError. -/
def SEE_ToNumber (interp : Interp) (val : EValue) : Except EValue ENumber :=
  match val with
  | .undefined => .ok .nan
  | .null => .ok (.fin 0)
  | .boolean b => .ok (.fin (if b then 1 else 0))
  | .number n => .ok n
  | .string s => .ok ((interp.lexNumber s).getD .nan)
  | .object o => (interp.defaultValue o Hint.number).map (ToNumber_of_prim interp)
  | .reference _ _ => .error (interp.mkError .typeError (strOf "tonumber_bad"))

/-- The `==` test the C code performs on two doubles already known not to
be NaN: infinities compare equal to themselves, finite values compare
as rationals, everything else is unequal. -/
def numEqRaw : ENumber → ENumber → Bool
  | .pinf, .pinf => true
  | .ninf, .ninf => true
  | .fin a, .fin b => a == b
  | _, _ => false

/-- The numeric arm of `RelationalExpression_sub`: NaN on either side
yields undefined; then the source's chain of tests (`==`, ISPINF on x,
ISPINF on y, ISNINF on y, ISNINF on x, then `<` on finite doubles).  The
final wildcard is unreachable: after the earlier tests both numbers are
finite. -/
def relNumCompare (r4 r5 : ENumber) : EValue :=
  if r4 = .nan ∨ r5 = .nan then .undefined
  else if numEqRaw r4 r5 then .boolean false
  else if r4 = .pinf then .boolean false
  else if r5 = .pinf then .boolean true
  else if r5 = .ninf then .boolean false
  else if r4 = .ninf then .boolean true
  else match r4, r5 with
  | .fin a, .fin b => .boolean (decide (a < b))
  | _, _ => .boolean false

/-- The string arm of `RelationalExpression_sub`: advance past the common
prefix; if y is exhausted first (or both) the result is false, if x is
exhausted first it is true, otherwise compare the first differing code
units. -/
def relStringLess : List Nat → List Nat → Bool
  | _, [] => false
  | [], _ :: _ => true
  | c1 :: t1, c2 :: t2 => if c1 ≠ c2 then decide (c1 < c2) else relStringLess t1 t2

/-- `RelationalExpression_sub` (parse.c, §11.8.5): convert both operands
with `SEE_ToPrimitive` (hint Number); if both results are strings,
compare code-unit lexicographically; otherwise convert both with
`SEE_ToNumber` and compare numerically (NaN giving undefined). -/
def RelationalExpression_sub (interp : Interp) (x y : EValue) :
    Except EValue EValue := do
  let r1 ← SEE_ToPrimitive interp x .number
  let r2 ← SEE_ToPrimitive interp y .number
  match r1, r2 with
  | .string s1, .string s2 => .ok (.boolean (relStringLess s1 s2))
  | r1, r2 => do
      let r4 ← SEE_ToNumber interp r1
      let r5 ← SEE_ToNumber interp r2
      .ok (relNumCompare r4 r5)

/-- `RelationalExpression_lt_eval` (parse.c, §11.8.1), as a function of
the two already-fetched operand values (after `EVAL` + `GetValue`):
`sub(x, y)`, with undefined mapped to false. -/
def RelationalExpression_lt_eval (interp : Interp) (r2 r4 : EValue) :
    Except EValue EValue := do
  let res ← RelationalExpression_sub interp r2 r4
  match res with
  | .undefined => .ok (.boolean false)
  | r => .ok r

/-- `RelationalExpression_gt_eval` (parse.c, §11.8.2): `sub(y, x)`, with
undefined mapped to false. -/
def RelationalExpression_gt_eval (interp : Interp) (r2 r4 : EValue) :
    Except EValue EValue := do
  let res ← RelationalExpression_sub interp r4 r2
  match res with
  | .undefined => .ok (.boolean false)
  | r => .ok r

/-- `RelationalExpression_le_eval` (parse.c, §11.8.3): `sub(y, x)`;
undefined gives false, otherwise the boolean is negated. -/
def RelationalExpression_le_eval (interp : Interp) (r2 r4 : EValue) :
    Except EValue EValue := do
  let r5 ← RelationalExpression_sub interp r4 r2
  match r5 with
  | .undefined => .ok (.boolean false)
  | .boolean b => .ok (.boolean !b)
  | r => .ok r

/-- `RelationalExpression_ge_eval` (parse.c, §11.8.4): `sub(x, y)`;
undefined gives false, otherwise the boolean is negated. -/
def RelationalExpression_ge_eval (interp : Interp) (r2 r4 : EValue) :
    Except EValue EValue := do
  let r5 ← RelationalExpression_sub interp r2 r4
  match r5 with
  | .undefined => .ok (.boolean false)
  | .boolean b => .ok (.boolean !b)
  | r => .ok r

/-! ### Numeric literals (lex.c, §7.8.3)

The lexer input is modelled as the list of Unicode scalars still to be
read (`ATEOF` = empty list, `NEXT` = head, `SKIP` = tail; the `LOOKAHEAD`
copy interface reads a prefix without consuming). -/

/-- `is_Letter` (lex.c, §7.6): ASCII approximation. -/
def is_Letter (c : Nat) : Bool :=
  (decide (65 ≤ c) && decide (c ≤ 90)) || (decide (97 ≤ c) && decide (c ≤ 122))

/-- `is_HexDigit` (lex.c). -/
def is_HexDigit (c : Nat) : Bool :=
  (decide (48 ≤ c) && decide (c ≤ 57)) ||
  (decide (65 ≤ c) && decide (c ≤ 70)) ||
  (decide (97 ≤ c) && decide (c ≤ 102))

/-- `HexValue` (lex.c). -/
def HexValue (c : Nat) : Nat :=
  if 48 ≤ c ∧ c ≤ 57 then c - 48
  else if 97 ≤ c ∧ c ≤ 102 then c - 97 + 10
  else c - 65 + 10

/-- A decimal digit test, as written inline in the C
(`'0' <= NEXT && NEXT <= '9'`). -/
def isDigitCh (c : Nat) : Bool := decide (48 ≤ c) && decide (c ≤ 57)

/-- `is_UnicodeEscape` (lex.c, §7.6): the next six scalars are
`\uHHHH`. -/
def is_UnicodeEscape (cs : List Nat) : Bool :=
  match cs with
  | a :: b :: c :: d :: e :: f :: _ =>
      (a == 92) && (b == 117) &&
      is_HexDigit c && is_HexDigit d && is_HexDigit e && is_HexDigit f
  | _ => false

/-- `is_IdentifierStart` (lex.c, §7.6): at end of input false; otherwise
`$`, `_`, a letter, or a `\uHHHH` escape. -/
def is_IdentifierStart (cs : List Nat) : Bool :=
  match cs with
  | [] => false
  | c :: _ => (c == 36) || (c == 95) || is_Letter c || is_UnicodeEscape cs

/-- Error messages raised by `NumericLiteral` via `SYNTAX_ERROR`. -/
inductive NumErr where
  | hex_literal_detritus
  | dec_literal_detritus
deriving DecidableEq

/-- The result of `NumericLiteral`: a SyntaxError, a `tNUMBER` token with
its value and the unconsumed input, or the `'.'` punctuator (when the
lookahead `[.0-9]` turned out to be a lone dot). -/
inductive LexNum where
  | synErr (msg : NumErr)
  | token (value : ENumber) (rest : List Nat)
  | dot (rest : List Nat)
deriving DecidableEq

/-- The hex-accumulation loop of `NumericLiteral`: `n += e *
HexValue(s->data[s->length-i-1]); e *= 16` over the collected digits,
i.e. the base-16 value of the digit string (exact, the IEEE rounding of
the accumulation being abstracted into the rational model). -/
def hexFold (s : List Nat) : ℚ :=
  s.foldl (fun acc d => acc * 16 + HexValue d) 0

/-- The octal-accumulation loop: `n = n * 8 + s->data[i] - '0'` over the
digits after the leading 0. -/
def octFold (s : List Nat) : ℚ :=
  s.foldl (fun acc d => acc * 8 + ((d : ℚ) - 48)) 0

/-- The hex branch of `NumericLiteral` (after `0x`/`0X` is consumed): an
empty or non-hex next scalar is a SyntaxError; the hex digits are
collected; a following identifier-start scalar is a SyntaxError
(`hex_literal_detritus`); otherwise the accumulated value is the
token. -/
def NumericLiteral_hexpart (cs : List Nat) : LexNum :=
  match cs with
  | [] => .synErr .hex_literal_detritus
  | d :: _ =>
    if is_HexDigit d then
      let digits := cs.takeWhile is_HexDigit
      let rest := cs.dropWhile is_HexDigit
      if is_IdentifierStart rest then .synErr .hex_literal_detritus
      else .token (.fin (hexFold digits)) rest
    else .synErr .hex_literal_detritus

/-- The tail of `NumericLiteral` after the integer digits (and the EXT1
octal branch) have been handled: optional fraction, the lone-dot
punctuator case, optional exponent (whose digitless form is a
SyntaxError), and finally the collected character string handed to the
external `SEE_strtod` (passed in as `strtod`; its `none` result trips the
source's "impossible condition" SyntaxError guard). -/
def NumericLiteral_tail (strtod : List Nat → Option ENumber)
    (s0 : List Nat) (seen0 : Bool) (cs0 : List Nat) : LexNum :=
  let hasDot := cs0.head? = some 46
  let afterDot := if hasDot then cs0.tail else cs0
  let frac := if hasDot then afterDot.takeWhile isDigitCh else []
  let s1 := if hasDot then s0 ++ [46] ++ frac else s0
  let seen1 := seen0 || (hasDot && !frac.isEmpty)
  let cs1 := if hasDot then afterDot.dropWhile isDigitCh else cs0
  if !seen1 then .dot cs1
  else
    match cs1 with
    | c :: cs2 =>
      if c = 101 ∨ c = 69 then
        let hasSign := cs2.head? = some 45 ∨ cs2.head? = some 43
        let signChars := if hasSign then cs2.take 1 else []
        let afterSign := if hasSign then cs2.tail else cs2
        let eDigits := afterSign.takeWhile isDigitCh
        if eDigits.isEmpty then .synErr .dec_literal_detritus
        else
          let s2 := s1 ++ [c] ++ signChars ++ eDigits
          match strtod s2 with
          | some n => .token n (afterSign.dropWhile isDigitCh)
          | none => .synErr .dec_literal_detritus
      else
        match strtod s1 with
        | some n => .token n cs1
        | none => .synErr .dec_literal_detritus
    | [] =>
      match strtod s1 with
      | some n => .token n cs1
      | none => .synErr .dec_literal_detritus

/-- The decimal part of `NumericLiteral` entered with the string collected
so far (`s0`, either empty or `"0"`) and the `seendigit` flag: collect the
remaining integer digits; under `SEE_COMPAT_EXT1`, a multi-digit string
starting with `0`, not followed by `.`/`e`/`E`, whose later digits are all
octal, and not followed by an identifier-start scalar, is an octal
integer token (any failed test falls through to the decimal
interpretation, the source's `goto not_octal`); otherwise continue with
`NumericLiteral_tail`. -/
def NumericLiteral_decimal (ext1 : Bool) (strtod : List Nat → Option ENumber)
    (s0 : List Nat) (seen0 : Bool) (cs : List Nat) : LexNum :=
  let ds := cs.takeWhile isDigitCh
  let s := s0 ++ ds
  let seendigit := seen0 || !ds.isEmpty
  let cs1 := cs.dropWhile isDigitCh
  if ext1 ∧ seendigit = true
      ∧ (cs1 = [] ∨ (cs1.head? ≠ some 46 ∧ cs1.head? ≠ some 101 ∧ cs1.head? ≠ some 69))
      ∧ 1 < s.length ∧ s.head? = some 48
      ∧ s.tail.all (fun d => decide (d ≤ 55))
      ∧ is_IdentifierStart cs1 = false then
    .token (.fin (octFold s.tail)) cs1
  else
    NumericLiteral_tail strtod s seendigit cs1

/-- `NumericLiteral` (lex.c, §7.8.3), entered on lookahead `[.0-9]`: a
leading `0` followed by `x`/`X` takes the hex branch; a lone leading `0`
seeds the digit string; everything else is decimal. -/
def NumericLiteral (ext1 : Bool) (strtod : List Nat → Option ENumber)
    (cs : List Nat) : LexNum :=
  match cs with
  | c :: cs1 =>
    if c = 48 then
      match cs1 with
      | x :: cs2 =>
        if x = 120 ∨ x = 88 then NumericLiteral_hexpart cs2
        else NumericLiteral_decimal ext1 strtod [48] true cs1
      | [] => NumericLiteral_decimal ext1 strtod [48] true []
    else NumericLiteral_decimal ext1 strtod [] false cs
  | [] => NumericLiteral_decimal ext1 strtod [] false []

/-! ### Property enumeration (enumerate.c, §12.6)

Property names here are interned strings compared by pointer identity
(`slist_cmp` subtracts the pointers); the identity is modelled as a
`Nat`.  An object together with its prototype chain is modelled by the
list of the own-enumerator outputs of each object in the chain, front
first: each entry is the list of `(name, dontenum)` pairs that
`SEE_OBJECT_ENUMERATOR` / `SEE_ENUM_NEXT` produce for that object (the
object implementations live outside this source tree). -/

abbrev PName := Nat

/-- A `struct propname_list` entry: name, prototype depth, dontenum
flag. -/
structure PropEntry where
  name : PName
  depth : Nat
  dontenum : Bool
deriving DecidableEq

/-- `make_list` (enumerate.c): prepend each own name of the current
object (so the object's entries end up reversed in front of the
accumulated list), then recurse into the prototype with `depth + 1`. -/
def make_list : List (List (PName × Bool)) → Nat → List PropEntry →
    List PropEntry
  | [], _, head => head
  | own :: protos, depth, head =>
      make_list protos (depth + 1)
        (own.foldl (fun acc nd => ⟨nd.1, depth, nd.2⟩ :: acc) head)

/-- The order given by `slist_cmp` (enumerate.c): name identity first,
depth second. -/
def slist_le (a b : PropEntry) : Prop :=
  a.name < b.name ∨ (a.name = b.name ∧ a.depth ≤ b.depth)

instance : DecidableRel slist_le := fun a b => by
  unfold slist_le; infer_instance

instance : IsTotal PropEntry slist_le where
  total a b := by
    rcases Nat.lt_trichotomy a.name b.name with h | h | h
    · exact Or.inl (Or.inl h)
    · rcases Nat.le_total a.depth b.depth with h2 | h2
      · exact Or.inl (Or.inr ⟨h, h2⟩)
      · exact Or.inr (Or.inr ⟨h.symm, h2⟩)
    · exact Or.inr (Or.inl h)

instance : IsTrans PropEntry slist_le where
  trans a b c hab hbc := by
    rcases hab with h | ⟨h, h2⟩ <;> rcases hbc with h' | ⟨h', h2'⟩
    · exact Or.inl (h.trans h')
    · exact Or.inl (h' ▸ h)
    · exact Or.inl (h ▸ h')
    · exact Or.inr ⟨h.trans h', h2.trans h2'⟩

/-- The duplicate-removal scan of `SEE_enumerate`: walk the sorted array
keeping a `current` name (initially NULL, modelled as `none`); an entry
whose name differs from `current` updates `current` and is kept exactly
when its dontenum flag is clear; an entry with the current name is
dropped. -/
def dedupScan : List PropEntry → Option PName → List PropEntry
  | [], _ => []
  | t :: rest, current =>
      if some t.name ≠ current then
        (if !t.dontenum then [t] else []) ++ dedupScan rest (some t.name)
      else dedupScan rest current

/-- `SEE_enumerate` (enumerate.c): build the `(name, depth, dontenum)`
list over the prototype chain, sort it by `slist_cmp` (the external
`qsort`, modelled by insertion sort over the same order — the comparison
is a total order, so on tie-free inputs every sort agrees), run the
duplicate-removal scan, and return the names. -/
def SEE_enumerate (chain : List (List (PName × Bool))) : List PName :=
  let slist := List.insertionSort slist_le (make_list chain 0 [])
  (dedupScan slist none).map PropEntry.name

/-! ### The `for (lhs in list) body` statement (parse.c, §12.6.3) and the
bytecode `B_ENUM` instruction (code1.c)

The mutable interpreter/heap state during the loop is an abstract type
`σ`; the operations the loop performs against it are supplied as
functions: `hasProp st n` is `SEE_OBJECT_HASPROPERTY(interp, r3.u.object,
n)` on the enumerated object, `putLhs st n` is `EVAL(n->lhs)` followed by
`PutValue` of the name string (it can throw), and `evalBody st` is
`EVAL(n->body)` (it can throw or return a completion). -/

structure ForinOps (σ : Type) where
  hasProp : σ → PName → Bool
  putLhs : σ → PName → Except EValue σ
  evalBody : σ → Except EValue (σ × Completion)

/-- The iteration loop of `IterationStatement_forin_eval`, over the
snapshot of property names.  Alongside the source's result (a completion
or a propagating exception, plus the final state), the embedding returns
a ghost trace of the iterations that passed the `HasProperty` re-check:
the pre-iteration state paired with the name assigned and run. -/
def forinLoop {σ : Type} (E : ForinOps σ) (target : Nat) :
    List PName → σ → Option EValue →
    Except EValue (σ × Completion) × List (σ × PName)
  | [], st, v => (.ok (st, ⟨.NORMAL, v, none⟩), [])
  | p :: rest, st, v =>
    if !E.hasProp st p then
      forinLoop E target rest st v
    else
      let tail : Except EValue (σ × Completion) × List (σ × PName) :=
        match E.putLhs st p with
        | .error e => (.error e, [])
        | .ok st1 =>
          match E.evalBody st1 with
          | .error e => (.error e, [])
          | .ok (st2, res) =>
            let v' := if res.value.isSome then res.value else v
            if res.ctype = .BREAK ∧ res.target = some target then
              (.ok (st2, ⟨.NORMAL, v', none⟩), [])
            else if res.ctype = .CONTINUE ∧ res.target = some target then
              forinLoop E target rest st2 v'
            else if res.ctype ≠ .NORMAL then
              (.ok (st2, res), [])
            else
              forinLoop E target rest st2 v'
      (tail.1, (st, p) :: tail.2)

/-- `IterationStatement_forin_eval` (parse.c, §12.6.3), starting after the
list expression has been evaluated and converted to an object: take the
snapshot `SEE_enumerate` of that object's enumerable names (its chain, as
seen at loop entry, is `chain`), then run the loop with `v` initially
NULL. -/
def IterationStatement_forin_eval {σ : Type} (E : ForinOps σ) (target : Nat)
    (chain : List (List (PName × Bool))) (st : σ) :
    Except EValue (σ × Completion) × List (σ × PName) :=
  forinLoop E target (SEE_enumerate chain) st none

/-- The `INST_B_ENUM` case of the bytecode interpreter (code1.c): advance
the enumerator cursor past names the object no longer has; if a name
remains, push it, branch to the target and advance the cursor (`some
(name, rest)`); if the snapshot is exhausted, fall through leaving the
block in place (`none`).  `hasProp` is `SEE_OBJECT_HASPROPERTY` on the
enumerated object in the current machine state. -/
def INST_B_ENUM (hasProp : PName → Bool) :
    List PName → Option (PName × List PName)
  | [] => none
  | p :: rest =>
      if !hasProp p then INST_B_ENUM hasProp rest
      else some (p, rest)

/-- Repeated executions of `B_ENUM` over one enumerator frame: the
machine state differs at each arrival at the instruction, so each
execution carries its own `HasProperty` predicate; the run stops when
`B_ENUM` falls through (or when control never returns, e.g. the loop
exits).  Returns the ghost trace of pushes: each step's predicate paired
with the name it pushed, in order. -/
def benumRun : List (PName → Bool) → List PName →
    List ((PName → Bool) × PName)
  | [], _ => []
  | hp :: hps, props =>
    match INST_B_ENUM hp props with
    | none => []
    | some (p, rest) => (hp, p) :: benumRun hps rest

/-! ## Theorems -/

instance {ε α : Type} [DecidableEq ε] [DecidableEq α] :
    DecidableEq (Except ε α) := fun a b =>
  match a, b with
  | .ok x, .ok y =>
      if h : x = y then .isTrue (by rw [h]) else
        .isFalse (fun hc => h (Except.ok.inj hc))
  | .error x, .error y =>
      if h : x = y then .isTrue (by rw [h]) else
        .isFalse (fun hc => h (Except.error.inj hc))
  | .ok _, .error _ => .isFalse (fun hc => Except.noConfusion hc)
  | .error _, .ok _ => .isFalse (fun hc => Except.noConfusion hc)

/-- A concrete interpreter used to instantiate theorems: default
compatibility flags (everything off), trivial instantiations of the
abstract object-protocol fields. -/
def interp0 : Interp where
  compatUNDEFDEF := false
  compatEXT1 := false
  objGet := fun _ _ => .ok .undefined
  defaultValue := fun _ _ => .ok .undefined
  hasCall := fun _ => false
  lexNumber := fun _ => none
  mkError := fun _ msg => .string msg

/-- C10: `SEE_string_concat(a, b)` returns the second argument itself when
`a` is empty, the first argument itself when (`a` is non-empty and) `b` is
empty, and otherwise allocates a fresh string whose contents are `a`'s
code units followed by `b`'s, of length `a.length + b.length`. -/
theorem string_concat_reuses_args (a b : SEE_string) :
    (a.data.length = 0 → SEE_string_concat a b = .second) ∧
    (a.data.length ≠ 0 → b.data.length = 0 → SEE_string_concat a b = .first) ∧
    (a.data.length ≠ 0 → b.data.length ≠ 0 →
      SEE_string_concat a b = .fresh (a.data ++ b.data) ∧
      (a.data ++ b.data).length = a.data.length + b.data.length) := by
  refine ⟨fun h1 => ?_, fun h1 h2 => ?_, fun h1 h2 => ⟨?_, ?_⟩⟩ <;>
    simp [SEE_string_concat, h1, *]

/-- Witness for `string_concat_reuses_args` at concrete strings. -/
theorem string_concat_reuses_args_witness :
    (SEE_string_concat ⟨[]⟩ ⟨[1]⟩ = .second) ∧
    (SEE_string_concat ⟨[1]⟩ ⟨[]⟩ = .first) ∧
    (SEE_string_concat ⟨[1]⟩ ⟨[2]⟩ = .fresh [1, 2]) :=
  ⟨(string_concat_reuses_args ⟨[]⟩ ⟨[1]⟩).1 (by decide),
   (string_concat_reuses_args ⟨[1]⟩ ⟨[]⟩).2.1 (by decide) (by decide),
   ((string_concat_reuses_args ⟨[1]⟩ ⟨[2]⟩).2.2 (by decide) (by decide)).1⟩

/-- C8: `GetValue(v)` returns `v` unchanged when `v` is not a Reference;
on a null-base Reference it throws ReferenceError unless the UNDEFDEF
compatibility flag is set, in which case it returns undefined; and on a
Reference with non-null base it performs `base.Get(property)`. -/
theorem GetValue_spec (interp : Interp) :
    (∀ v : EValue, (∀ b p, v ≠ .reference b p) → GetValue interp v = .ok v) ∧
    (∀ p, GetValue interp (.reference none p) =
        (if interp.compatUNDEFDEF then .ok .undefined
         else .error (interp.mkError .referenceError p))) ∧
    (∀ b p, GetValue interp (.reference (some b) p) = interp.objGet b p) := by
  refine ⟨fun v hv => ?_, fun p => rfl, fun b p => rfl⟩
  cases v with
  | reference b p => exact absurd rfl (hv b p)
  | _ => rfl

/-- Witness for `GetValue_spec` at concrete inputs. -/
theorem GetValue_spec_witness :
    GetValue interp0 (.boolean true) = .ok (.boolean true) ∧
    GetValue interp0 (.reference none [120]) =
      .error (interp0.mkError .referenceError [120]) ∧
    GetValue interp0 (.reference (some 0) [120]) = interp0.objGet 0 [120] :=
  ⟨(GetValue_spec interp0).1 (.boolean true) (fun b p => by simp),
   by simpa [interp0] using (GetValue_spec interp0).2.1 [120],
   (GetValue_spec interp0).2.2 0 [120]⟩

/-- C2: evaluating `typeof` on a Reference with null base under default
compatibility flags.  The source stores "undefined" into the result but
falls through (no `return`) into `GetValue`, which throws ReferenceError;
so the evaluation throws instead of producing the string "undefined"
(while a plain `GetValue` read of the same Reference throws
ReferenceError, as the claim also states). -/
theorem typeof_nullbase_throws :
    UnaryExpression_typeof_eval interp0 (.reference none (strOf "undeclared"))
      = .error (interp0.mkError .referenceError (strOf "undeclared")) ∧
    (∀ r : EValue,
      UnaryExpression_typeof_eval interp0 (.reference none (strOf "undeclared"))
        ≠ .ok r) ∧
    GetValue interp0 (.reference none (strOf "undeclared"))
      = .error (interp0.mkError .referenceError (strOf "undeclared")) := by
  refine ⟨rfl, fun r h => ?_, rfl⟩
  rw [show UnaryExpression_typeof_eval interp0
      (.reference none (strOf "undeclared"))
      = .error (interp0.mkError .referenceError (strOf "undeclared")) from rfl]
    at h
  exact Except.noConfusion h

/-- C3: `try Block Finally` — the finally result is always consumed; a
non-NORMAL finally completion (including an exception thrown by the
finally block) is the overall completion, superseding anything from the
try block; a NORMAL finally completion lets the try block's completion
stand, with a caught throw re-raised. -/
theorem try_finally_spec (blockRes : EvalResult) :
    (∀ e, TryStatement_finally_eval blockRes (.error e) = .error e) ∧
    (∀ f : Completion, f.ctype ≠ .NORMAL → f.ctype ≠ .THROW →
        TryStatement_finally_eval blockRes (.ok f) = .ok f) ∧
    (∀ f : Completion, f.ctype = .THROW →
        TryStatement_finally_eval blockRes (.ok f)
          = .error (f.value.getD .undefined)) ∧
    (∀ f : Completion, f.ctype = .NORMAL →
      (∀ c : Completion, blockRes = .ok c → c.ctype ≠ .THROW →
          TryStatement_finally_eval blockRes (.ok f) = .ok c) ∧
      (∀ v, blockRes = .error v →
          TryStatement_finally_eval blockRes (.ok f) = .error v)) := by
  refine ⟨fun e => rfl, fun f h1 h2 => ?_, fun f h1 => ?_,
    fun f h1 => ⟨fun c hc hct => ?_, fun v hv => ?_⟩⟩
  · simp [TryStatement_finally_eval, h1, h2]
  · simp [TryStatement_finally_eval, h1]
  · subst hc
    simp [TryStatement_finally_eval, completionOfBlock, h1, hct]
  · subst hv
    simp [TryStatement_finally_eval, completionOfBlock, h1]

/-- Witness for `try_finally_spec`: a BREAK from the finally block
supersedes a pending throw from the try block; a NORMAL finally completion
re-raises the try block's throw. -/
theorem try_finally_spec_witness :
    TryStatement_finally_eval (.error (.string [120]))
        (.ok ⟨.BREAK, none, some 1⟩) = .ok ⟨.BREAK, none, some 1⟩ ∧
    TryStatement_finally_eval (.error (.string [120]))
        (.ok ⟨.NORMAL, none, none⟩) = .error (.string [120]) :=
  ⟨(try_finally_spec (.error (.string [120]))).2.1 ⟨.BREAK, none, some 1⟩
      (by decide) (by decide),
   ((try_finally_spec (.error (.string [120]))).2.2.2 ⟨.NORMAL, none, none⟩
      rfl).2 (.string [120]) rfl⟩

/-- C1: evaluating `try Block Catch Finally` at two concrete inputs shows
the finally-override rule is inverted in the source.  With the try block
completing RETURN(1) and the finally block completing normally, the
statement completes NORMAL (the claim requires the try/catch completion,
RETURN(1), to stand); with the try block completing normally and the
finally block completing BREAK, the statement completes NORMAL (the claim
requires the finally block's BREAK to be the overall completion). -/
theorem try_catchfinally_inverted :
    TryStatement_catchfinally_eval
        (.ok ⟨.RETURN, some (.number (.fin 1)), none⟩)
        (fun _ => .ok ⟨.NORMAL, none, none⟩)
        (.ok ⟨.NORMAL, none, none⟩) = .ok ⟨.NORMAL, none, none⟩ ∧
    TryStatement_catchfinally_eval
        (.ok ⟨.RETURN, some (.number (.fin 1)), none⟩)
        (fun _ => .ok ⟨.NORMAL, none, none⟩)
        (.ok ⟨.NORMAL, none, none⟩)
      ≠ .ok ⟨.RETURN, some (.number (.fin 1)), none⟩ ∧
    TryStatement_catchfinally_eval
        (.ok ⟨.NORMAL, none, none⟩)
        (fun _ => .ok ⟨.NORMAL, none, none⟩)
        (.ok ⟨.BREAK, none, some 7⟩) = .ok ⟨.NORMAL, none, none⟩ ∧
    TryStatement_catchfinally_eval
        (.ok ⟨.NORMAL, none, none⟩)
        (fun _ => .ok ⟨.NORMAL, none, none⟩)
        (.ok ⟨.BREAK, none, some 7⟩)
      ≠ .ok ⟨.BREAK, none, some 7⟩ := by
  refine ⟨rfl, by decide, rfl, by decide⟩

/-- C9: the `EXPECT_SEMICOLON` macro accepts exactly a `;` token (which it
consumes), a `}` token, or a token carrying the follows-newline bit, and
raises SyntaxError otherwise; and the scanning loop of `SEE_lex_next`
always reports the follows-newline bit as set on the end-of-input
token. -/
theorem asi_spec :
    (∀ fnl, EXPECT_SEMICOLON tSEMICOLON fnl = .consumed) ∧
    (∀ next fnl, next ≠ tSEMICOLON → (next = tRBRACE ∨ fnl = true) →
        EXPECT_SEMICOLON next fnl = .inserted) ∧
    (∀ next fnl, next ≠ tSEMICOLON → next ≠ tRBRACE → fnl = false →
        EXPECT_SEMICOLON next fnl = .synErr) ∧
    (∀ raw fnl0, (SEE_lex_next_scan raw fnl0).2 = tEND →
        (SEE_lex_next_scan raw fnl0).1 = true) := by
  refine ⟨fun fnl => by simp [EXPECT_SEMICOLON],
    fun next fnl h1 h2 => by
      have h1' : next ≠ 59 := h1
      rcases h2 with h2 | h2 <;>
        simp [EXPECT_SEMICOLON, h1', h2, tRBRACE, tSEMICOLON],
    fun next fnl h1 h2 h3 => by simp [EXPECT_SEMICOLON, h1, h2, h3],
    fun raw => ?_⟩
  induction raw with
  | nil => intro fnl0 _; rfl
  | cons t rest ih =>
    intro fnl0 h
    by_cases h1 : t = tLINETERMINATOR
    · rw [SEE_lex_next_scan, if_pos h1] at h ⊢
      exact ih true h
    · by_cases h2 : t = tEND
      · rw [SEE_lex_next_scan, if_neg h1, if_pos h2]
      · rw [SEE_lex_next_scan, if_neg h1, if_neg h2] at h
        exact absurd h h2

/-- Witness for `asi_spec` at concrete tokens: an identifier token (code
of `a`) after a newline is accepted, without a newline it is a
SyntaxError; a raw stream ending in `tEND` reports follows-newline. -/
theorem asi_spec_witness :
    EXPECT_SEMICOLON 97 true = .inserted ∧
    EXPECT_SEMICOLON 97 false = .synErr ∧
    (SEE_lex_next_scan [] false).1 = true :=
  ⟨asi_spec.2.1 97 true (by decide) (Or.inr rfl),
   asi_spec.2.2.1 97 false (by decide) (by decide) rfl,
   asi_spec.2.2.2 [] false rfl⟩

/-- A strtod model for evaluating the lexer at concrete inputs: always
parses to the number 0 (the numeric value plays no role in C4). -/
def strtod0 : List Nat → Option ENumber := fun _ => some (.fin 0)

/-- C4: the detritus rule at concrete inputs.  The hex branch rejects a
trailing identifier-start (`0x1fz` is a SyntaxError), but the decimal
branch performs no such check (`123z` lexes as a number token with `z`
left over), and the EXT1 octal branch falls back to the decimal
interpretation on a trailing identifier-start (`017z` also lexes as a
number token) — contradicting the claim for the decimal and octal
forms. -/
theorem numeric_literal_detritus :
    NumericLiteral false strtod0 (strOf "0x1fz")
      = .synErr .hex_literal_detritus ∧
    NumericLiteral false strtod0 (strOf "123z")
      = .token (.fin 0) (strOf "z") ∧
    NumericLiteral true strtod0 (strOf "017z")
      = .token (.fin 0) (strOf "z") ∧
    (∀ msg, NumericLiteral false strtod0 (strOf "123z") ≠ .synErr msg) := by
  refine ⟨by decide, by decide, by decide, fun msg h => ?_⟩
  rw [show NumericLiteral false strtod0 (strOf "123z")
      = .token (.fin 0) (strOf "z") from by decide] at h
  exact LexNum.noConfusion h

/-- Bind on an `ok` value, for unfolding the `Except` plumbing. -/
theorem exbind_ok {ε α β : Type} (a : α) (f : α → Except ε β) :
    (Except.ok (ε := ε) a >>= f) = f a := rfl

/-- Whether a value is a String. -/
def isStringV : EValue → Bool
  | .string _ => true
  | _ => false

/-- When the two `ToPrimitive` results are not both strings,
`RelationalExpression_sub` takes its numeric arm. -/
theorem RelationalExpression_sub_numeric (interp : Interp) (x y : EValue)
    (r1 r2 : EValue) (h1 : SEE_ToPrimitive interp x .number = .ok r1)
    (h2 : SEE_ToPrimitive interp y .number = .ok r2)
    (h3 : (isStringV r1 && isStringV r2) = false) :
    RelationalExpression_sub interp x y
      = (SEE_ToNumber interp r1 >>= fun r4 =>
         SEE_ToNumber interp r2 >>= fun r5 => .ok (relNumCompare r4 r5)) := by
  simp only [RelationalExpression_sub, h1, h2, exbind_ok]
  cases r1 <;> cases r2 <;> first | rfl | simp [isStringV] at h3

/-- NaN on either side sends the numeric arm to undefined. -/
theorem relNumCompare_nan (n1 n2 : ENumber) (h : n1 = .nan ∨ n2 = .nan) :
    relNumCompare n1 n2 = .undefined := by
  rcases h with h | h <;> simp [relNumCompare, h]

/-- C7: the abstract relational comparison converts both operands with
`SEE_ToPrimitive` (hint Number); when both results are strings it compares
them code-unit lexicographically; otherwise it converts both with
`SEE_ToNumber` and yields undefined when either is NaN, which the four
relational operators turn into the boolean false; and the three concrete
comparisons of the claim evaluate as stated. -/
theorem relational_spec (interp : Interp) (x y : EValue) :
    (∀ s1 s2, SEE_ToPrimitive interp x .number = .ok (.string s1) →
        SEE_ToPrimitive interp y .number = .ok (.string s2) →
        RelationalExpression_sub interp x y
          = .ok (.boolean (relStringLess s1 s2))) ∧
    (∀ r1 r2 n1 n2, SEE_ToPrimitive interp x .number = .ok r1 →
        SEE_ToPrimitive interp y .number = .ok r2 →
        (isStringV r1 && isStringV r2) = false →
        SEE_ToNumber interp r1 = .ok n1 →
        SEE_ToNumber interp r2 = .ok n2 →
        (n1 = .nan ∨ n2 = .nan) →
        RelationalExpression_sub interp x y = .ok .undefined) ∧
    (RelationalExpression_sub interp x y = .ok .undefined →
        RelationalExpression_lt_eval interp x y = .ok (.boolean false) ∧
        RelationalExpression_ge_eval interp x y = .ok (.boolean false) ∧
        RelationalExpression_gt_eval interp y x = .ok (.boolean false) ∧
        RelationalExpression_le_eval interp y x = .ok (.boolean false)) ∧
    (RelationalExpression_lt_eval interp (.string (strOf "abc"))
        (.string (strOf "abd")) = .ok (.boolean true) ∧
     RelationalExpression_lt_eval interp (.string (strOf "10"))
        (.string (strOf "9")) = .ok (.boolean true) ∧
     RelationalExpression_lt_eval interp (.number (.fin 10))
        (.number (.fin 9)) = .ok (.boolean false)) := by
  refine ⟨fun s1 s2 h1 h2 => ?_, fun r1 r2 n1 n2 h1 h2 h3 h4 h5 h6 => ?_,
    fun hsub => ?_, rfl, rfl, rfl⟩
  · simp only [RelationalExpression_sub, h1, h2, exbind_ok]
  · rw [RelationalExpression_sub_numeric interp x y r1 r2 h1 h2 h3]
    simp only [h4, h5, exbind_ok, relNumCompare_nan n1 n2 h6]
  · exact ⟨by simp only [RelationalExpression_lt_eval, hsub, exbind_ok],
      by simp only [RelationalExpression_ge_eval, hsub, exbind_ok],
      by simp only [RelationalExpression_gt_eval, hsub, exbind_ok],
      by simp only [RelationalExpression_le_eval, hsub, exbind_ok]⟩

/-- Witness for `relational_spec`: `undefined < 0` goes through the
numeric arm, yields undefined (NaN on the left), and `<` maps it to
false; `"10" < "9"` compares as strings. -/
theorem relational_spec_witness :
    RelationalExpression_sub interp0 .undefined (.number (.fin 0))
      = .ok .undefined ∧
    RelationalExpression_lt_eval interp0 .undefined (.number (.fin 0))
      = .ok (.boolean false) ∧
    RelationalExpression_lt_eval interp0 (.string (strOf "10"))
      (.string (strOf "9")) = .ok (.boolean true) := by
  have h := relational_spec interp0 .undefined (.number (.fin 0))
  have hsub : RelationalExpression_sub interp0 .undefined (.number (.fin 0))
      = .ok .undefined :=
    h.2.1 .undefined (.number (.fin 0)) .nan (.fin 0) rfl rfl rfl rfl rfl
      (Or.inl rfl)
  exact ⟨hsub, (h.2.2.1 hsub).1,
    (relational_spec interp0 (.string (strOf "10"))
      (.string (strOf "9"))).2.2.2.2.1⟩

/-- The tree-walk for-in loop's ghost trace: the names run form a sublist
of the snapshot (so, in particular, each is run at most once when the
snapshot has no duplicates), and every iteration that ran had passed the
`HasProperty` re-check in its pre-iteration state. -/
theorem forinLoop_trace {σ : Type} (E : ForinOps σ) (target : Nat) :
    ∀ (props : List PName) (st : σ) (v : Option EValue),
      ((forinLoop E target props st v).2.map Prod.snd).Sublist props ∧
      ∀ q ∈ (forinLoop E target props st v).2, E.hasProp q.1 q.2 = true := by
  intro props
  induction props with
  | nil =>
    intro st v
    exact ⟨List.nil_sublist _, by simp [forinLoop]⟩
  | cons p rest ih =>
    intro st v
    cases hhp : E.hasProp st p with
    | false =>
      have heq : forinLoop E target (p :: rest) st v
          = forinLoop E target rest st v := by
        simp [forinLoop, hhp]
      rw [heq]
      obtain ⟨h1, h2⟩ := ih st v
      exact ⟨h1.trans (List.sublist_cons_self p rest), h2⟩
    | true =>
      simp only [forinLoop, hhp, Bool.not_true, Bool.false_eq_true,
        if_false, List.map_cons, List.mem_cons]
      cases hput : E.putLhs st p with
      | error e =>
        simp only [hput]
        exact ⟨(List.nil_sublist rest).cons₂ p,
          fun q hq => by
            rcases hq with hq | hq
            · rw [hq]; exact hhp
            · simp at hq⟩
      | ok st1 =>
        cases hbody : E.evalBody st1 with
        | error e =>
          simp only [hput, hbody]
          exact ⟨(List.nil_sublist rest).cons₂ p,
            fun q hq => by
              rcases hq with hq | hq
              · rw [hq]; exact hhp
              · simp at hq⟩
        | ok s2r =>
          obtain ⟨st2, res⟩ := s2r
          simp only [hput, hbody]
          split_ifs <;>
            first
              | exact ⟨(List.nil_sublist rest).cons₂ p,
                  fun q hq => by
                    rcases hq with hq | hq
                    · rw [hq]; exact hhp
                    · simp at hq⟩
              | exact ⟨((ih st2 _).1).cons₂ p,
                  fun q hq => by
                    rcases hq with hq | hq
                    · rw [hq]; exact hhp
                    · exact (ih st2 _).2 q hq⟩

/-- A successful `B_ENUM` step pushed a name the object still has, the
names it skipped were all absent, and the cursor moved past the pushed
name. -/
theorem INST_B_ENUM_some (hp : PName → Bool) :
    ∀ props p rest, INST_B_ENUM hp props = some (p, rest) →
      hp p = true ∧ ∃ pre, props = pre ++ p :: rest ∧
        ∀ q ∈ pre, hp q = false := by
  intro props
  induction props with
  | nil => intro p rest h; simp [INST_B_ENUM] at h
  | cons a l ih =>
    intro p rest h
    cases hha : hp a with
    | false =>
      rw [INST_B_ENUM, hha] at h
      simp only [Bool.not_false, if_true] at h
      obtain ⟨h1, pre, h2, h3⟩ := ih p rest h
      exact ⟨h1, a :: pre, by rw [List.cons_append, h2],
        fun q hq => by
          rcases List.mem_cons.mp hq with hq | hq
          · rw [hq]; exact hha
          · exact h3 q hq⟩
    | true =>
      rw [INST_B_ENUM, hha] at h
      simp only [Bool.not_true, Bool.false_eq_true, if_false,
        Option.some.injEq, Prod.mk.injEq] at h
      exact ⟨by rw [← h.1]; exact hha, [], by simp [h.1, h.2], by simp⟩

/-- A falling-through `B_ENUM` found every remaining snapshot name
absent. -/
theorem INST_B_ENUM_none (hp : PName → Bool) :
    ∀ props, INST_B_ENUM hp props = none → ∀ q ∈ props, hp q = false := by
  intro props
  induction props with
  | nil => intro _ q hq; simp at hq
  | cons a l ih =>
    intro h q hq
    cases hha : hp a with
    | false =>
      rw [INST_B_ENUM, hha] at h
      simp only [Bool.not_false, if_true] at h
      rcases List.mem_cons.mp hq with hq | hq
      · rw [hq]; exact hha
      · exact ih h q hq
    | true =>
      rw [INST_B_ENUM, hha] at h
      simp at h

/-- A run of `B_ENUM` steps pushes a sublist of the snapshot (each
snapshot name at most once, the cursor only advancing), every pushed name
passing its step's `HasProperty` check. -/
theorem benumRun_trace :
    ∀ (hps : List (PName → Bool)) (props : List PName),
      ((benumRun hps props).map Prod.snd).Sublist props ∧
      ∀ q ∈ benumRun hps props, q.1 q.2 = true := by
  intro hps
  induction hps with
  | nil =>
    intro props
    exact ⟨List.nil_sublist _, by simp [benumRun]⟩
  | cons hp hps ih =>
    intro props
    cases hstep : INST_B_ENUM hp props with
    | none =>
      simp only [benumRun, hstep]
      exact ⟨List.nil_sublist _, by simp⟩
    | some pr =>
      obtain ⟨p, rest⟩ := pr
      obtain ⟨h1, pre, h2, _⟩ := INST_B_ENUM_some hp props p rest hstep
      obtain ⟨hs, hm⟩ := ih rest
      refine ⟨?_, ?_⟩
      · simp only [benumRun, hstep, List.map_cons]
        rw [h2]
        exact (hs.cons₂ p).trans (List.sublist_append_right pre (p :: rest))
      · intro q hq
        simp only [benumRun, hstep, List.mem_cons] at hq
        rcases hq with hq | hq
        · rw [hq]; exact h1
        · exact hm q hq

/-- C5: the for-in statement takes its snapshot with `SEE_enumerate`
before the loop; in the tree-walk loop each snapshot name is assigned and
its body run only if the object still has the property at that iteration
(the `HasProperty` re-check), and the names run form a sublist of the
snapshot, so each snapshot name is processed at most once; the bytecode
`B_ENUM` instruction likewise pushes a still-present name after skipping
absent ones, moving its cursor strictly forward, so a run of `B_ENUM`
steps also yields a sublist of the snapshot. -/
theorem forin_spec {σ : Type} (E : ForinOps σ) (target : Nat) :
    (∀ (chain : List (List (PName × Bool))) (st : σ),
        IterationStatement_forin_eval E target chain st
          = forinLoop E target (SEE_enumerate chain) st none) ∧
    (∀ (props : List PName) (st : σ) (v : Option EValue),
        ((forinLoop E target props st v).2.map Prod.snd).Sublist props ∧
        ∀ q ∈ (forinLoop E target props st v).2,
          E.hasProp q.1 q.2 = true) ∧
    (∀ (hp : PName → Bool) props p rest,
        INST_B_ENUM hp props = some (p, rest) →
        hp p = true ∧ ∃ pre, props = pre ++ p :: rest ∧
          ∀ q ∈ pre, hp q = false) ∧
    (∀ (hp : PName → Bool) props, INST_B_ENUM hp props = none →
        ∀ q ∈ props, hp q = false) ∧
    (∀ (hps : List (PName → Bool)) (props : List PName),
        ((benumRun hps props).map Prod.snd).Sublist props ∧
        ∀ q ∈ benumRun hps props, q.1 q.2 = true) :=
  ⟨fun _ _ => rfl, forinLoop_trace E target, INST_B_ENUM_some,
   INST_B_ENUM_none, benumRun_trace⟩

/-- Concrete for-in operations over state `Nat` for the witness: the
object "has" every property except the one equal to the state. -/
def forinOps0 : ForinOps Nat where
  hasProp := fun st n => decide (n ≠ st)
  putLhs := fun st _ => .ok st
  evalBody := fun st => .ok (st, ⟨.NORMAL, none, none⟩)

/-- Witness for `forin_spec` at concrete inputs. -/
theorem forin_spec_witness :
    ((forinLoop forinOps0 0 [1, 2] 5 none).2.map Prod.snd).Sublist [1, 2] ∧
    (∀ q ∈ (forinLoop forinOps0 0 [1, 2] 5 none).2,
        forinOps0.hasProp q.1 q.2 = true) ∧
    ((fun n => decide (n ≠ 1)) 2 = true ∧
      ∃ pre, [1, 2] = pre ++ 2 :: [] ∧
        ∀ q ∈ pre, (fun n => decide (n ≠ 1)) q = false) :=
  ⟨((forin_spec forinOps0 0).2.1 [1, 2] 5 none).1,
   ((forin_spec forinOps0 0).2.1 [1, 2] 5 none).2,
   (forin_spec forinOps0 0).2.2.1 (fun n => decide (n ≠ 1)) [1, 2] 2 []
     (by decide)⟩

/-! ### Correctness of `SEE_enumerate` -/

/-- The sort/dedup key of an entry: name identity and depth. -/
def keyOf (e : PropEntry) : PName × Nat := (e.name, e.depth)

/-- The entries `make_list` collects, in structural order: each chain
level contributes its own `(name, dontenum)` pairs at its depth. -/
def triples : List (List (PName × Bool)) → Nat → List PropEntry
  | [], _ => []
  | own :: protos, d =>
      own.map (fun nd => ⟨nd.1, d, nd.2⟩) ++ triples protos (d + 1)

theorem foldl_consRev (f : PName × Bool → PropEntry) :
    ∀ (own : List (PName × Bool)) (head : List PropEntry),
      own.foldl (fun acc nd => f nd :: acc) head
        = (own.map f).reverse ++ head := by
  intro own
  induction own with
  | nil => intro head; rfl
  | cons nd own ih =>
    intro head
    simp only [List.foldl_cons, List.map_cons, List.reverse_cons, ih]
    simp

/-- `make_list` produces a permutation of the structural entry list. -/
theorem make_list_perm :
    ∀ (chain : List (List (PName × Bool))) (d : Nat)
      (head : List PropEntry),
      (make_list chain d head).Perm (triples chain d ++ head) := by
  intro chain
  induction chain with
  | nil => intro d head; simp [make_list, triples]
  | cons own protos ih =>
    intro d head
    rw [make_list, foldl_consRev (fun nd => ⟨nd.1, d, nd.2⟩)]
    refine (ih (d + 1) _).trans ?_
    rw [triples]
    have s1 : (triples protos (d + 1) ++
          ((own.map fun nd => (⟨nd.1, d, nd.2⟩ : PropEntry)).reverse ++
            head)).Perm
        (triples protos (d + 1) ++
          ((own.map fun nd => (⟨nd.1, d, nd.2⟩ : PropEntry)) ++ head)) :=
      List.Perm.append_left _ ((List.reverse_perm _).append_right head)
    have s2 : (triples protos (d + 1) ++
          ((own.map fun nd => (⟨nd.1, d, nd.2⟩ : PropEntry)) ++ head)).Perm
        (((own.map fun nd => (⟨nd.1, d, nd.2⟩ : PropEntry)) ++
          triples protos (d + 1)) ++ head) := by
      rw [← List.append_assoc]
      exact List.Perm.append_right head List.perm_append_comm
    exact s1.trans s2

/-- Membership in the structural entry list corresponds to an own
property at some chain depth. -/
theorem mem_triples :
    ∀ (chain : List (List (PName × Bool))) (d : Nat) (e : PropEntry),
      e ∈ triples chain d ↔
        ∃ k, k < chain.length ∧ e.depth = d + k ∧
          (e.name, e.dontenum) ∈ chain.getD k [] := by
  intro chain
  induction chain with
  | nil => intro d e; simp [triples]
  | cons own protos ih =>
    intro d e
    rw [triples, List.mem_append]
    constructor
    · rintro (h | h)
      · obtain ⟨nd, hnd, he⟩ := List.mem_map.mp h
        refine ⟨0, by simp, ?_, ?_⟩
        · rw [← he]; simp
        · rw [← he]; simpa using hnd
      · obtain ⟨k, hk, hd, hm⟩ := (ih (d + 1) e).mp h
        exact ⟨k + 1, by simpa using hk, by omega, by simpa using hm⟩
    · rintro ⟨k, hk, hd, hm⟩
      cases k with
      | zero =>
        left
        refine List.mem_map.mpr ⟨(e.name, e.dontenum), by simpa using hm, ?_⟩
        obtain ⟨n, dep, de⟩ := e
        have hd' : dep = d + 0 := hd
        have hdd : d = dep := by omega
        rw [hdd]
      | succ k' =>
        right
        exact (ih (d + 1) e).mpr
          ⟨k', by simpa using hk, by omega, by simpa using hm⟩

/-- Every entry of `triples chain d` sits at depth at least `d`. -/
theorem triples_depth_le (chain : List (List (PName × Bool))) (d : Nat)
    (e : PropEntry) (h : e ∈ triples chain d) : d ≤ e.depth := by
  obtain ⟨k, _, hd, _⟩ := (mem_triples chain d e).mp h
  omega

/-- With per-object distinct own names, the collected entries have
pairwise distinct `(name, depth)` keys. -/
theorem triples_keyNodup :
    ∀ (chain : List (List (PName × Bool))) (d : Nat),
      (∀ own ∈ chain, (own.map Prod.fst).Nodup) →
      ((triples chain d).map keyOf).Nodup := by
  intro chain
  induction chain with
  | nil => intro d _; simp [triples]
  | cons own protos ih =>
    intro d hnd
    rw [triples, List.map_append]
    refine List.Nodup.append ?_
      (ih (d + 1) (fun o ho => hnd o (List.mem_cons_of_mem own ho))) ?_
    · rw [List.map_map]
      have h1 := hnd own (List.mem_cons_self own protos)
      have hinj : Function.Injective (fun x : PName => (x, d)) := by
        intro a b hab
        simpa using congrArg Prod.fst hab
      have h2 := h1.map hinj
      rw [List.map_map] at h2
      exact h2
    · intro a ha hb
      obtain ⟨e1, he1, hk1⟩ := List.mem_map.mp ha
      obtain ⟨e2, he2, hk2⟩ := List.mem_map.mp hb
      obtain ⟨nd, _, hnd1⟩ := List.mem_map.mp he1
      have hd1 : a.2 = d := by rw [← hk1, ← hnd1]; rfl
      have hd2 : d + 1 ≤ a.2 := by
        rw [← hk2]
        exact triples_depth_le protos (d + 1) e2 he2
      omega

/-- Membership in the dedup scan of a sorted, key-distinct list: exactly
the names outside the current run whose shallowest entry is
enumerable. -/
theorem dedupScan_mem :
    ∀ (l : List PropEntry) (cur : Option PName),
      l.Sorted slist_le → ((l.map keyOf).Nodup) →
      (∀ c, cur = some c → ∀ e ∈ l, c ≤ e.name) →
      ∀ nm, (∃ e ∈ dedupScan l cur, e.name = nm) ↔
        (cur ≠ some nm ∧ ∃ e ∈ l, e.name = nm ∧ e.dontenum = false ∧
          ∀ e' ∈ l, e'.name = nm → e.depth ≤ e'.depth) := by
  intro l
  induction l with
  | nil =>
    intro cur _ _ _ nm
    simp [dedupScan]
  | cons t rest ih =>
    intro cur hsort hnd hinv nm
    have hsort' : rest.Sorted slist_le := hsort.of_cons
    have hrel : ∀ e ∈ rest, slist_le t e := (List.pairwise_cons.mp hsort).1
    rw [List.map_cons] at hnd
    have hnd' : (rest.map keyOf).Nodup := (List.nodup_cons.mp hnd).2
    have hkey : keyOf t ∉ rest.map keyOf := (List.nodup_cons.mp hnd).1
    have hnamele : ∀ e ∈ rest, t.name ≤ e.name := by
      intro e he
      rcases hrel e he with h | ⟨h1, _⟩
      · exact Nat.le_of_lt h
      · exact Nat.le_of_eq h1
    by_cases hc : some t.name = cur
    · rw [dedupScan, if_neg (not_not_intro hc)]
      rw [ih cur hsort' hnd'
        (fun c hcur e he => hinv c hcur e (List.mem_cons_of_mem t he)) nm]
      constructor
      · rintro ⟨hne, e, he, hnm, hflag, hmin⟩
        refine ⟨hne, e, List.mem_cons_of_mem t he, hnm, hflag, ?_⟩
        intro e' he' hnm'
        rcases List.mem_cons.mp he' with rfl | he'
        · exact absurd (hc.symm.trans (congrArg some hnm')) hne
        · exact hmin e' he' hnm'
      · rintro ⟨hne, e, he, hnm, hflag, hmin⟩
        rcases List.mem_cons.mp he with rfl | he
        · exact absurd (hc.symm.trans (congrArg some hnm)) hne
        · exact ⟨hne, e, he, hnm, hflag,
            fun e' he' h' => hmin e' (List.mem_cons_of_mem t he') h'⟩
    · rw [dedupScan, if_pos hc]
      have hinv2 : ∀ c, some t.name = some c → ∀ e ∈ rest, c ≤ e.name := by
        rintro c hcc e he
        have hcc' : t.name = c := Option.some.inj hcc
        subst hcc'
        exact hnamele e he
      have hih := ih (some t.name) hsort' hnd' hinv2 nm
      by_cases hnmt : nm = t.name
      · subst hnmt
        constructor
        · rintro ⟨e, he, hnm⟩
          rcases List.mem_append.mp he with he | he
          · by_cases hflag : t.dontenum
            · rw [if_neg (by simp [hflag])] at he
              simp at he
            · refine ⟨fun h => hc h.symm, t, List.mem_cons_self t rest, rfl,
                by simpa using hflag, ?_⟩
              intro e' he' hnm'
              rcases List.mem_cons.mp he' with rfl | he'
              · exact le_refl _
              · rcases hrel e' he' with h | ⟨h1, h2⟩
                · exact absurd (hnm' ▸ h) (Nat.lt_irrefl _)
                · exact h2
          · have hcons := hih.mp ⟨e, he, hnm⟩
            exact (hcons.1 rfl).elim
        · rintro ⟨hne, e, he, hnm, hflag, hmin⟩
          have htflag : t.dontenum = false := by
            rcases List.mem_cons.mp he with rfl | he
            · exact hflag
            · have h1 : t.depth ≤ e.depth := by
                rcases hrel e he with h | ⟨h1, h2⟩
                · exact absurd (hnm ▸ h) (Nat.lt_irrefl _)
                · exact h2
              have h2 : e.depth ≤ t.depth :=
                hmin t (List.mem_cons_self t rest) rfl
              have heqkey : keyOf e = keyOf t := by
                simp only [keyOf, Prod.mk.injEq]
                exact ⟨hnm, by omega⟩
              exact absurd (heqkey ▸ List.mem_map_of_mem keyOf he) hkey
          refine ⟨t, List.mem_append.mpr (Or.inl ?_), rfl⟩
          rw [if_pos (by simp [htflag])]
          exact List.mem_singleton.mpr rfl
      · constructor
        · rintro ⟨e, he, hnm⟩
          rcases List.mem_append.mp he with he | he
          · have het : e = t := by
              by_cases hflag : t.dontenum
              · rw [if_neg (by simp [hflag])] at he
                simp at he
              · rw [if_pos (by simp [hflag])] at he
                exact List.mem_singleton.mp he
            exact absurd (het ▸ hnm).symm hnmt
          · obtain ⟨-, e2, he2, h3, h4, h5⟩ := hih.mp ⟨e, he, hnm⟩
            refine ⟨?_, e2, List.mem_cons_of_mem t he2, h3, h4, ?_⟩
            · intro hcur
              have hcle := hinv nm hcur t (List.mem_cons_self t rest)
              have h6 : t.name ≤ e2.name := hnamele e2 he2
              rw [h3] at h6
              exact hnmt (Nat.le_antisymm hcle h6)
            · intro e' he' h'
              rcases List.mem_cons.mp he' with rfl | he'
              · exact absurd h'.symm hnmt
              · exact h5 e' he' h'
        · rintro ⟨hne, e, he, hnm, hflag, hmin⟩
          rcases List.mem_cons.mp he with rfl | he
          · exact absurd hnm.symm hnmt
          · obtain ⟨e2, he2, h3⟩ := hih.mpr
              ⟨fun hh => hnmt (Option.some.inj hh).symm, e, he, hnm, hflag,
               fun e' he' h' => hmin e' (List.mem_cons_of_mem t he') h'⟩
            exact ⟨e2, List.mem_append.mpr (Or.inr he2), h3⟩

/-- The dedup scan of a sorted list has strictly increasing names (and
all of them above the current run's name). -/
theorem dedupScan_names :
    ∀ (l : List PropEntry) (cur : Option PName),
      l.Sorted slist_le →
      (∀ c, cur = some c → ∀ e ∈ l, c ≤ e.name) →
      ((dedupScan l cur).map PropEntry.name).Pairwise (· < ·) ∧
      (∀ c, cur = some c → ∀ e ∈ dedupScan l cur, c < e.name) := by
  intro l
  induction l with
  | nil => intro cur _ _; simp [dedupScan]
  | cons t rest ih =>
    intro cur hsort hinv
    have hsort' : rest.Sorted slist_le := hsort.of_cons
    have hrel : ∀ e ∈ rest, slist_le t e := (List.pairwise_cons.mp hsort).1
    have hnamele : ∀ e ∈ rest, t.name ≤ e.name := by
      intro e he
      rcases hrel e he with h | ⟨h1, _⟩
      · exact Nat.le_of_lt h
      · exact Nat.le_of_eq h1
    by_cases hc : some t.name = cur
    · rw [dedupScan, if_neg (not_not_intro hc)]
      exact ih cur hsort'
        (fun c hcur e he => hinv c hcur e (List.mem_cons_of_mem t he))
    · rw [dedupScan, if_pos hc]
      have hinv2 : ∀ c, some t.name = some c → ∀ e ∈ rest, c ≤ e.name := by
        rintro c hcc e he
        have hcc' : t.name = c := Option.some.inj hcc
        subst hcc'
        exact hnamele e he
      obtain ⟨hpw, hgt⟩ := ih (some t.name) hsort' hinv2
      have hgt' : ∀ e ∈ dedupScan rest (some t.name), t.name < e.name :=
        hgt t.name rfl
      constructor
      · by_cases hflag : t.dontenum
        · rw [if_neg (by simp [hflag])]
          simpa using hpw
        · rw [if_pos (by simp [hflag])]
          rw [List.singleton_append, List.map_cons]
          refine List.Pairwise.cons ?_ hpw
          intro b hb
          obtain ⟨e, he, hbe⟩ := List.mem_map.mp hb
          rw [← hbe]
          exact hgt' e he
      · rintro c hcur e he
        have hct : c ≤ t.name := hinv c hcur t (List.mem_cons_self t rest)
        have hct2 : c ≠ t.name := by
          intro h
          exact hc (by rw [hcur, h])
        have hclt : c < t.name := lt_of_le_of_ne hct hct2
        rcases List.mem_append.mp he with he | he
        · have het : e = t := by
            by_cases hflag : t.dontenum
            · rw [if_neg (by simp [hflag])] at he
              simp at he
            · rw [if_pos (by simp [hflag])] at he
              exact List.mem_singleton.mp he
          rw [het]
          exact hclt
        · exact lt_trans hclt (hgt' e he)

/-- C6: `SEE_enumerate` returns exactly the distinct names over the
object's own-enumerators and those of its prototype chain whose
shallowest (smallest-depth) occurrence does not carry the DONTENUM flag
— each such name exactly once, in strictly increasing name-identity
order (depth being the sort's secondary key).  The hypothesis is the
native-object invariant that one object's own enumerator reports each
name at most once. -/
theorem enumerate_spec (chain : List (List (PName × Bool)))
    (hnd : ∀ own ∈ chain, (own.map Prod.fst).Nodup) :
    (∀ nm, nm ∈ SEE_enumerate chain ↔
        ∃ i, i < chain.length ∧ (nm, false) ∈ chain.getD i [] ∧
          ∀ j < i, ∀ de, (nm, de) ∉ chain.getD j []) ∧
    (SEE_enumerate chain).Pairwise (· < ·) := by
  have hperm : (List.insertionSort slist_le (make_list chain 0 [])).Perm
      (triples chain 0) :=
    (List.perm_insertionSort slist_le _).trans
      (by simpa using make_list_perm chain 0 [])
  have hsorted : (List.insertionSort slist_le
      (make_list chain 0 [])).Sorted slist_le :=
    List.sorted_insertionSort slist_le _
  have hknd : ((List.insertionSort slist_le
      (make_list chain 0 [])).map keyOf).Nodup :=
    ((hperm.map keyOf).nodup_iff).mpr (triples_keyNodup chain 0 hnd)
  have hnone : ∀ c : PName, (none : Option PName) = some c →
      ∀ e ∈ List.insertionSort slist_le (make_list chain 0 []), c ≤ e.name :=
    fun c h => Option.noConfusion h
  have hdmem := dedupScan_mem _ none hsorted hknd hnone
  have hdnames := dedupScan_names _ none hsorted hnone
  constructor
  · intro nm
    rw [show SEE_enumerate chain
        = (dedupScan (List.insertionSort slist_le (make_list chain 0 []))
            none).map PropEntry.name from rfl]
    rw [List.mem_map]
    constructor
    · rintro ⟨e, he, hnm⟩
      obtain ⟨-, e1, he1, hnm1, hflag1, hmin1⟩ := (hdmem nm).mp ⟨e, he, hnm⟩
      obtain ⟨k, hk, hdep, hmem⟩ :=
        (mem_triples chain 0 e1).mp (hperm.subset he1)
      refine ⟨k, hk, ?_, ?_⟩
      · rw [← hnm1, ← hflag1]
        exact hmem
      · intro j hj de hjm
        have hje : (⟨nm, j, de⟩ : PropEntry) ∈ triples chain 0 :=
          (mem_triples chain 0 ⟨nm, j, de⟩).mpr
            ⟨j, by omega, by simp, hjm⟩
        have hd1 : e1.depth ≤ j :=
          hmin1 ⟨nm, j, de⟩ (hperm.symm.subset hje) rfl
        omega
    · rintro ⟨i, hi, hmem, hshallow⟩
      have hte : (⟨nm, i, false⟩ : PropEntry) ∈ triples chain 0 :=
        (mem_triples chain 0 ⟨nm, i, false⟩).mpr ⟨i, hi, by simp, hmem⟩
      refine (hdmem nm).mpr ⟨by simp, ⟨nm, i, false⟩,
        hperm.symm.subset hte, rfl, rfl, ?_⟩
      intro e' he' hnm'
      obtain ⟨k, hk, hdep, hmem'⟩ :=
        (mem_triples chain 0 e').mp (hperm.subset he')
      rw [hnm'] at hmem'
      by_cases hki : k < i
      · exact absurd hmem' (hshallow k hki e'.dontenum)
      · show i ≤ e'.depth
        omega
  · rw [show SEE_enumerate chain
        = (dedupScan (List.insertionSort slist_le (make_list chain 0 []))
            none).map PropEntry.name from rfl]
    exact hdnames.1

/-- Witness for `enumerate_spec` on the chain `[[(5, F), (3, T)],
[(3, F), (7, F)]]`: name 5 is enumerable at depth 0; name 3's shallowest
occurrence carries DONTENUM, so it is absent even though the prototype
has an enumerable 3; the output is strictly name-ordered. -/
theorem enumerate_spec_witness :
    5 ∈ SEE_enumerate [[(5, false), (3, true)], [(3, false), (7, false)]] ∧
    3 ∉ SEE_enumerate [[(5, false), (3, true)], [(3, false), (7, false)]] ∧
    (SEE_enumerate
      [[(5, false), (3, true)], [(3, false), (7, false)]]).Pairwise
        (· < ·) := by
  have h := enumerate_spec [[(5, false), (3, true)], [(3, false), (7, false)]]
    (by decide)
  refine ⟨(h.1 5).mpr ⟨0, by decide, by decide, fun j hj => by omega⟩,
    fun hmem => ?_, h.2⟩
  obtain ⟨i, hi, hm, hsh⟩ := (h.1 3).mp hmem
  have h30 : ((3 : PName), true) ∈ [((5 : PName), false), (3, true)] := by
    decide
  match i, hi with
  | 0, _ => exact absurd hm (by decide)
  | 1, _ => exact absurd h30 (hsh 0 (by omega) true)

end SEE
